import Mathlib

/-!
Verification development for the sql-cleanser repository.

The backend compare module (`compare_utils.py`, `ingest.py`, `fuzz.py`,
`ollama_utils.py`) is documented in `docs/INTERNAL_WORKINGS.md`,
`docs/PROJECT_OVERVIEW.md` and the project overview document, which quote
the key code fragments (`INSERT_REGEX`, the NetworkX dependency-graph
construction and `nx.topological_sort` call).  The frontend components
(`ProgressBar.tsx`, `Dropzone.tsx`, `ComparisonExample.tsx`) are present
in full.  Definitions below are translated from those sources; where the
backend implementation file is absent from the repository snapshot, the
definition is modelled from the specification and marked as such in its
doc comment.
-/

namespace SqlCleanser

/-! ## Typed scalar values used in primary-key tuples

The spec stores values "untyped-but-classified"; the diff sorts keys with
"per-column typed comparison (numeric compare for numeric-kind columns,
lexicographic otherwise)".  A classified scalar is therefore either a
numeric value or a raw string. -/

/-- Modelled from the spec: a classified scalar literal, either numeric
(compared numerically) or textual (compared lexicographically). -/
inductive KVal where
  | num (n : Int)
  | str (s : String)
deriving DecidableEq, Repr

/-- Strict typed comparison on classified scalars: numeric values compare
numerically, strings lexicographically, and numeric values sort before
strings so the order is total. -/
def KVal.lt : KVal → KVal → Prop
  | .num n, .num m => n < m
  | .num _, .str _ => True
  | .str _, .num _ => False
  | .str a, .str b => a < b

instance : DecidableRel KVal.lt := fun a b =>
  match a, b with
  | .num n, .num m => inferInstanceAs (Decidable (n < m))
  | .num _, .str _ => inferInstanceAs (Decidable True)
  | .str _, .num _ => inferInstanceAs (Decidable False)
  | .str a, .str b => inferInstanceAs (Decidable (a < b))

instance : IsTrichotomous KVal KVal.lt where
  trichotomous a b := by
    cases a with
    | num n => cases b with
      | num m =>
        rcases lt_trichotomy n m with h | h | h
        · exact Or.inl h
        · exact Or.inr (Or.inl (by rw [h]))
        · exact Or.inr (Or.inr h)
      | str s => exact Or.inl trivial
    | str a => cases b with
      | num m => exact Or.inr (Or.inr trivial)
      | str b =>
        rcases lt_trichotomy a b with h | h | h
        · exact Or.inl h
        · exact Or.inr (Or.inl (by rw [h]))
        · exact Or.inr (Or.inr h)

instance : IsIrrefl KVal KVal.lt where
  irrefl a := by cases a with
    | num n => exact lt_irrefl n
    | str s => exact lt_irrefl s

instance : IsTrans KVal KVal.lt where
  trans a b c hab hbc := by
    cases a <;> cases b <;> cases c <;>
      simp only [KVal.lt] at * <;>
      exact lt_trans hab hbc

instance : IsStrictTotalOrder KVal KVal.lt := {}

instance : LinearOrder KVal := linearOrderOfSTO KVal.lt

/-- A primary-key tuple: the ordered list of classified key-column values;
compared lexicographically with the typed per-column comparison. -/
abbrev PKey := List KVal

/-- A row's value vector, aligned with the table's shared column list. -/
abbrev RowVals := List KVal

/-! ## DiffEngine

Modelled from the spec (the implementing `compare_utils.py` is absent from
the repository snapshot; `docs/INTERNAL_WORKINGS.md` §3 describes it):
each side of a table is mapped by PK tuple into a dict (`b_map` / `o_map`,
last-seen row wins on duplicate keys), the key sets are sorted with the
typed comparison, and keys are classified as missing / extra / matched,
with value-level comparison on matched keys producing mismatch entries. -/

/-- Keys of one side's key→row map, in first-insertion order without
duplicates (Python dict key order). -/
def keysOf (side : List (PKey × RowVals)) : List PKey :=
  (side.map Prod.fst).dedup

/-- Lookup in the key→row map built with last-seen-wins semantics. -/
def lookupLast (side : List (PKey × RowVals)) (k : PKey) : Option RowVals :=
  (side.reverse.find? (fun p => decide (p.1 = k))).map Prod.snd

/-- Modelled from the spec: per-column value comparison of two matched
rows over the table's shared column list, skipping excluded columns and
recording a (column, source value, target value) entry per difference. -/
def rowDiffs (cols : List String) (excl : List String)
    (r1 r2 : RowVals) : List (String × KVal × KVal) :=
  (cols.zip (r1.zip r2)).filterMap (fun cvv =>
    if cvv.1 ∈ excl then none
    else if cvv.2.1 = cvv.2.2 then none
    else some (cvv.1, cvv.2.1, cvv.2.2))

/-- Per-table diff result: ordered missing, extra and matched key lists
plus mismatch entries for matched keys whose rows differ. -/
structure DiffTable where
  missing : List PKey
  extra : List PKey
  matched : List PKey
  mismatches : List (PKey × List (String × KVal × KVal))
deriving DecidableEq, Repr

/-- Canonical key ordering: insertion sort under the typed lexicographic
key comparison. -/
def sortKeys (l : List PKey) : List PKey :=
  l.insertionSort (· ≤ ·)

/-- Keys present in the first side's map and absent from the second, in
canonical order. -/
def missingKeys (src tgt : List (PKey × RowVals)) : List PKey :=
  sortKeys ((keysOf src).filter (fun k => decide (k ∉ keysOf tgt)))

/-- Keys present in both sides' maps, in canonical order. -/
def matchedKeys (src tgt : List (PKey × RowVals)) : List PKey :=
  sortKeys ((keysOf src).filter (fun k => decide (k ∈ keysOf tgt)))

/-- Mismatch entry produced for a matched key: the per-column differences
of the two rows stored under that key, or `none` when the rows agree on
every non-excluded column. -/
def mismatchAt (cols : List String) (excl : List String)
    (src tgt : List (PKey × RowVals)) (k : PKey) :
    Option (PKey × List (String × KVal × KVal)) :=
  match lookupLast src k, lookupLast tgt k with
  | some r1, some r2 =>
    let ds := rowDiffs cols excl r1 r2
    if ds.isEmpty then none else some (k, ds)
  | _, _ => none

/-- Modelled from the spec: the DiffEngine for one table.  Builds the two
key→row maps, sorts each key set canonically, classifies keys present
only in the source as missing, only in the target as extra, in both as
matched, and records a mismatch entry for every matched key whose rows
differ in a non-excluded column. -/
def diffTable (cols : List String) (excl : List String)
    (src tgt : List (PKey × RowVals)) : DiffTable :=
  { missing := missingKeys src tgt
    extra := missingKeys tgt src
    matched := matchedKeys src tgt
    mismatches := (matchedKeys src tgt).filterMap (mismatchAt cols excl src tgt) }

/-! ### Basic facts about the canonical sort and key sets -/

theorem mem_sortKeys {k : PKey} {l : List PKey} : k ∈ sortKeys l ↔ k ∈ l :=
  List.mem_insertionSort _

theorem sortKeys_sorted (l : List PKey) : (sortKeys l).Sorted (· ≤ ·) :=
  List.sorted_insertionSort _ l

theorem sortKeys_eq_of_perm {l l' : List PKey} (h : l.Perm l') :
    sortKeys l = sortKeys l' :=
  List.eq_of_perm_of_sorted
    ((List.perm_insertionSort _ l).trans (h.trans (List.perm_insertionSort _ l').symm))
    (sortKeys_sorted l) (sortKeys_sorted l')

theorem keysOf_nodup (side : List (PKey × RowVals)) : (keysOf side).Nodup :=
  List.nodup_dedup _

theorem mem_missingKeys {k : PKey} {s t : List (PKey × RowVals)} :
    k ∈ missingKeys s t ↔ k ∈ keysOf s ∧ k ∉ keysOf t := by
  simp [missingKeys, mem_sortKeys, List.mem_filter]

theorem mem_matchedKeys {k : PKey} {s t : List (PKey × RowVals)} :
    k ∈ matchedKeys s t ↔ k ∈ keysOf s ∧ k ∈ keysOf t := by
  simp [matchedKeys, mem_sortKeys, List.mem_filter]

theorem matchedKeys_comm (s t : List (PKey × RowVals)) :
    matchedKeys t s = matchedKeys s t := by
  apply sortKeys_eq_of_perm
  refine (List.perm_ext_iff_of_nodup ((keysOf_nodup t).filter _)
    ((keysOf_nodup s).filter _)).mpr (fun k => ?_)
  simp only [List.mem_filter, decide_eq_true_eq]
  tauto

/-! ### Swap symmetry of mismatch entries -/

/-- Swaps the source/target components of one mismatch entry. -/
def swapEntry (e : PKey × List (String × KVal × KVal)) :
    PKey × List (String × KVal × KVal) :=
  (e.1, e.2.map (fun d => (d.1, d.2.2, d.2.1)))

theorem rowDiffs_swap (cols excl : List String) (r1 r2 : RowVals) :
    rowDiffs cols excl r2 r1
      = (rowDiffs cols excl r1 r2).map (fun d => (d.1, d.2.2, d.2.1)) := by
  induction cols generalizing r1 r2 with
  | nil => simp [rowDiffs]
  | cons c cs ih =>
    cases r1 with
    | nil => simp [rowDiffs]
    | cons v1 t1 =>
      cases r2 with
      | nil => simp [rowDiffs]
      | cons v2 t2 =>
        by_cases hc : c ∈ excl
        · simpa [rowDiffs, List.filterMap_cons, hc] using ih t1 t2
        · by_cases hv : v1 = v2
          · simpa [rowDiffs, List.filterMap_cons, hc, hv] using ih t1 t2
          · have hv' : ¬ v2 = v1 := fun h => hv h.symm
            simpa [rowDiffs, List.filterMap_cons, hc, hv, hv'] using ih t1 t2

theorem mismatchAt_swap (cols excl : List String)
    (s t : List (PKey × RowVals)) (k : PKey) :
    mismatchAt cols excl t s k
      = Option.map swapEntry (mismatchAt cols excl s t k) := by
  unfold mismatchAt
  cases hs : lookupLast s k with
  | none => cases ht : lookupLast t k <;> simp
  | some r1 =>
    cases ht : lookupLast t k with
    | none => simp
    | some r2 =>
      simp only [rowDiffs_swap cols excl r1 r2]
      cases rowDiffs cols excl r1 r2 with
      | nil => simp
      | cons d ds => simp [swapEntry]

/-! ### Values of equal rows never mismatch -/

theorem rowDiffs_self (cols excl : List String) (r : RowVals) :
    rowDiffs cols excl r r = [] := by
  induction cols generalizing r with
  | nil => simp [rowDiffs]
  | cons c cs ih =>
    cases r with
    | nil => simp [rowDiffs]
    | cons v tl =>
      by_cases hc : c ∈ excl <;>
        simpa [rowDiffs, List.filterMap_cons, hc] using ih tl

theorem lookupLast_eq_some {side : List (PKey × RowVals)} {k : PKey} {r : RowVals}
    (h : lookupLast side k = some r) : (k, r) ∈ side := by
  unfold lookupLast at h
  cases hf : side.reverse.find? (fun p => decide (p.1 = k)) with
  | none => rw [hf] at h; simp at h
  | some p =>
    rw [hf] at h
    have hp : p.1 = k := by
      have := List.find?_some hf
      simpa using this
    have hmem : p ∈ side := List.mem_reverse.mp (List.mem_of_find?_eq_some hf)
    simp only [Option.map_some', Option.some.injEq] at h
    rw [← h, ← hp]
    exact hmem

/-- When every stored pair has its key equal to its full value vector
(the composite fallback key), matched rows are byte-identical, so no
mismatch entry is ever produced. -/
theorem mismatches_nil_of_fullKey (cols excl : List String)
    (s t : List (PKey × RowVals))
    (hs : ∀ p ∈ s, p.1 = p.2) (ht : ∀ p ∈ t, p.1 = p.2) :
    (diffTable cols excl s t).mismatches = [] := by
  have : ∀ k ∈ matchedKeys s t, mismatchAt cols excl s t k = none := by
    intro k _
    unfold mismatchAt
    cases h1 : lookupLast s k with
    | none => cases h2 : lookupLast t k <;> simp
    | some r1 =>
      cases h2 : lookupLast t k with
      | none => simp
      | some r2 =>
        have e1 : r1 = k := (hs _ (lookupLast_eq_some h1)).symm
        have e2 : r2 = k := (ht _ (lookupLast_eq_some h2)).symm
        subst e1 e2
        simp [rowDiffs_self]
  show (matchedKeys s t).filterMap (mismatchAt cols excl s t) = []
  exact List.filterMap_eq_nil_iff.mpr this

/-- Helper: the first components of the produced mismatch entries form a
sublist of the matched-key list. -/
theorem map_fst_filterMap_sublist {α β : Type} (f : α → Option (α × β))
    (h : ∀ a x, f a = some x → x.1 = a) :
    ∀ l : List α, (((l.filterMap f).map Prod.fst).Sublist l)
  | [] => List.nil_sublist _
  | a :: tl => by
    cases hf : f a with
    | none =>
      simpa [List.filterMap_cons, hf] using
        (map_fst_filterMap_sublist f h tl).cons a
    | some x =>
      have hx : x.1 = a := h a x hf
      simpa [List.filterMap_cons, hf, hx] using
        (map_fst_filterMap_sublist f h tl).cons₂ a

/-! ## Claim theorems about the DiffEngine -/

/-- C1: for every table present in both datasets, the DiffEngine's
classification partitions the union of key sets: missing ∪ extra ∪
matched = keys(source) ∪ keys(target), and the three sets are pairwise
disjoint. -/
theorem diff_classification_partitions (cols excl : List String)
    (src tgt : List (PKey × RowVals)) :
    ((diffTable cols excl src tgt).missing ++ (diffTable cols excl src tgt).extra
        ++ (diffTable cols excl src tgt).matched).toFinset
      = (keysOf src).toFinset ∪ (keysOf tgt).toFinset
    ∧ (diffTable cols excl src tgt).missing.Disjoint
        (diffTable cols excl src tgt).extra
    ∧ (diffTable cols excl src tgt).missing.Disjoint
        (diffTable cols excl src tgt).matched
    ∧ (diffTable cols excl src tgt).extra.Disjoint
        (diffTable cols excl src tgt).matched := by
  have hm : ∀ k : PKey, k ∈ (diffTable cols excl src tgt).missing ↔
      k ∈ keysOf src ∧ k ∉ keysOf tgt := fun k => mem_missingKeys
  have he : ∀ k : PKey, k ∈ (diffTable cols excl src tgt).extra ↔
      k ∈ keysOf tgt ∧ k ∉ keysOf src := fun k => mem_missingKeys
  have hmt : ∀ k : PKey, k ∈ (diffTable cols excl src tgt).matched ↔
      k ∈ keysOf src ∧ k ∈ keysOf tgt := fun k => mem_matchedKeys
  refine ⟨?_, ?_, ?_, ?_⟩
  · ext k
    simp only [List.toFinset_append, Finset.mem_union, List.mem_toFinset, hm, he, hmt]
    tauto
  · intro k hk hk'
    rw [hm] at hk; rw [he] at hk'; tauto
  · intro k hk hk'
    rw [hm] at hk; rw [hmt] at hk'; tauto
  · intro k hk hk'
    rw [he] at hk; rw [hmt] at hk'; tauto

/-- C2: the diff is a deterministic function of its inputs — identical
inputs yield identical ordered output — and the canonical per-column
typed sort fixes the iteration order: all four output lists are sorted
under the typed key comparison. -/
theorem diff_deterministic (cols excl : List String)
    (s t s' t' : List (PKey × RowVals)) (hs : s = s') (ht : t = t') :
    diffTable cols excl s t = diffTable cols excl s' t'
    ∧ (diffTable cols excl s t).missing.Sorted (· ≤ ·)
    ∧ (diffTable cols excl s t).extra.Sorted (· ≤ ·)
    ∧ (diffTable cols excl s t).matched.Sorted (· ≤ ·)
    ∧ ((diffTable cols excl s t).mismatches.map Prod.fst).Sorted (· ≤ ·) := by
  subst hs ht
  refine ⟨rfl, sortKeys_sorted _, sortKeys_sorted _, sortKeys_sorted _, ?_⟩
  have hsub : (((matchedKeys s t).filterMap (mismatchAt cols excl s t)).map
      Prod.fst).Sublist (matchedKeys s t) := by
    refine map_fst_filterMap_sublist _ (fun a x hx => ?_) _
    unfold mismatchAt at hx
    cases h1 : lookupLast s a with
    | none => rw [h1] at hx; cases h2 : lookupLast t a <;> rw [h2] at hx <;> simp at hx
    | some r1 =>
      rw [h1] at hx
      cases h2 : lookupLast t a with
      | none => rw [h2] at hx; simp at hx
      | some r2 =>
        rw [h2] at hx
        simp only at hx
        by_cases hds : (rowDiffs cols excl r1 r2).isEmpty
        · rw [if_pos hds] at hx; cases hx
        · rw [if_neg hds] at hx
          cases hx
          rfl
  exact List.Pairwise.sublist hsub (sortKeys_sorted _)

/-- Witness for C2: re-running the diff on a concrete identical pair of
datasets yields the identical result, with sorted missing keys. -/
theorem diff_deterministic_witness :
    diffTable ["id"] [] [([KVal.num 2], [KVal.num 2])]
        [([KVal.num 1], [KVal.num 1])]
      = diffTable ["id"] [] [([KVal.num 2], [KVal.num 2])]
        [([KVal.num 1], [KVal.num 1])]
    ∧ (diffTable ["id"] [] [([KVal.num 2], [KVal.num 2])]
        [([KVal.num 1], [KVal.num 1])]).missing.Sorted (· ≤ ·) := by
  have h := diff_deterministic ["id"] [] [([KVal.num 2], [KVal.num 2])]
    [([KVal.num 1], [KVal.num 1])] [([KVal.num 2], [KVal.num 2])]
    [([KVal.num 1], [KVal.num 1])] rfl rfl
  exact ⟨h.1, h.2.1⟩

/-- C3: swapping the source and target datasets and re-running turns
every missing entry into an extra entry and vice versa, keeps the matched
keys identical, and maps every mismatch entry to the entry with the same
key and columns but the (source value, target value) pairs swapped. -/
theorem diff_swap_symmetry (cols excl : List String)
    (s t : List (PKey × RowVals)) :
    (diffTable cols excl t s).missing = (diffTable cols excl s t).extra
    ∧ (diffTable cols excl t s).extra = (diffTable cols excl s t).missing
    ∧ (diffTable cols excl t s).matched = (diffTable cols excl s t).matched
    ∧ (diffTable cols excl t s).mismatches
        = (diffTable cols excl s t).mismatches.map swapEntry := by
  refine ⟨rfl, rfl, matchedKeys_comm s t, ?_⟩
  show (matchedKeys t s).filterMap (mismatchAt cols excl t s)
      = ((matchedKeys s t).filterMap (mismatchAt cols excl s t)).map swapEntry
  rw [matchedKeys_comm s t, List.map_filterMap]
  exact List.filterMap_congr (fun k _ => mismatchAt_swap cols excl s t k)

/-! ## KeyInferrer

Modelled from the spec (`ollama_utils.py`, which implements
`infer_primary_keys` and the retry logic, is absent from the repository
snapshot; `docs/INTERNAL_WORKINGS.md` §2 documents the oracle call):
a bounded-attempt request to the inference oracle, validated against the
table's column set, with a composite-key fallback after 3 failed
attempts. -/

/-- Confidence flag attached to an inferred primary key. -/
inductive Confidence where
  | heuristic
  | oracleConfirmed
  | fallbackLow
deriving DecidableEq, Repr

/-- Modelled from the spec: an oracle suggestion is accepted only when
every suggested column exists in the table's column set. -/
def validSuggestion (cols : List String) (sug : List String) : Bool :=
  sug.all (fun c => decide (c ∈ cols))

/-- Modelled from the spec: issue up to `n` oracle attempts (failure or
timeout yields no answer) and return the first validated suggestion. -/
def firstValidSuggestion (oracle : Nat → Option (List String))
    (cols : List String) : Nat → Option (List String)
  | 0 => none
  | n + 1 =>
    match firstValidSuggestion oracle cols n with
    | some s => some s
    | none =>
      match oracle n with
      | some sug => if validSuggestion cols sug then some sug else none
      | none => none

/-- Modelled from the spec: the oracle-consulting stage of the
KeyInferrer (reached when no heuristic candidate is unique-valued).
After 3 retries without a validated suggestion it falls back to the
composite key equal to the full column set with low confidence. -/
def inferKey (cols : List String) (oracle : Nat → Option (List String)) :
    List String × Confidence :=
  match firstValidSuggestion oracle cols 3 with
  | some pk => (pk, Confidence.oracleConfirmed)
  | none => (cols, Confidence.fallbackLow)

theorem firstValidSuggestion_none (cols : List String)
    (oracle : Nat → Option (List String)) :
    ∀ n, (∀ i sug, i < n → oracle i = some sug →
        validSuggestion cols sug = false) →
      firstValidSuggestion oracle cols n = none := by
  intro n
  induction n with
  | zero => intro _; rfl
  | succ m ih =>
    intro hh
    unfold firstValidSuggestion
    rw [ih (fun i sug hi => hh i sug (Nat.lt_succ_of_lt hi))]
    cases ho : oracle m with
    | none => rfl
    | some sug => simp [hh m sug (Nat.lt_succ_self m) ho]

/-- C6: when the oracle fails, times out or returns a rejected suggestion
on all 3 retries, the KeyInferrer returns the composite key equal to the
full column set with fallback-low confidence; under a fallback key equal
to the full value vector, rows differing in any column have distinct keys
and the structured diff still proceeds with an empty mismatch list. -/
theorem keyInferrer_fallback (cols : List String)
    (oracle : Nat → Option (List String))
    (h : ∀ i sug, i < 3 → oracle i = some sug →
        validSuggestion cols sug = false) :
    inferKey cols oracle = (cols, Confidence.fallbackLow)
    ∧ (∀ p q : PKey × RowVals, p.1 = p.2 → q.1 = q.2 → p.2 ≠ q.2 → p.1 ≠ q.1)
    ∧ ∀ (dcols excl : List String) (s t : List (PKey × RowVals)),
        (∀ p ∈ s, p.1 = p.2) → (∀ p ∈ t, p.1 = p.2) →
        (diffTable dcols excl s t).mismatches = [] := by
  refine ⟨?_, ?_, ?_⟩
  · unfold inferKey
    rw [firstValidSuggestion_none cols oracle 3 h]
  · intro p q hp hq hne
    rw [hp, hq]
    exact hne
  · intro dcols excl s t hs ht
    exact mismatches_nil_of_fullKey dcols excl s t hs ht

/-- Witness for C6: a concretely always-failing oracle yields the
composite fallback key, and two fully-keyed rows differing in one column
produce no mismatch entry. -/
theorem keyInferrer_fallback_witness :
    inferKey ["id", "name"] (fun _ => none)
        = (["id", "name"], Confidence.fallbackLow)
    ∧ (diffTable ["id", "name"] []
        [([KVal.num 1, KVal.str "Ann"], [KVal.num 1, KVal.str "Ann"])]
        [([KVal.num 1, KVal.str "Bob"], [KVal.num 1, KVal.str "Bob"])]).mismatches
        = [] := by
  have h := keyInferrer_fallback ["id", "name"] (fun _ => none)
    (fun i sug _ hc => by cases hc)
  refine ⟨h.1, h.2.2 ["id", "name"] [] _ _ ?_ ?_⟩
  · intro p hp
    simp only [List.mem_singleton] at hp
    rw [hp]
  · intro p hp
    simp only [List.mem_singleton] at hp
    rw [hp]

/-! ## DependencyGraphBuilder

Translated from the code excerpt in the project overview document
(`fuzz.py`, Step 5 "Table Ordering"):

  for table, rows in rows_by_table.items():
      for col in rows[0]['columns']:
          if col.upper().endswith('_ID'):
              ref_table = col[:-3]
              if ref_table in rows_by_table:
                  G.add_edge(ref_table, table)
  order = list(nx.topological_sort(G))

`nx.topological_sort` performs Kahn's algorithm over the digraph and
raises `NetworkXUnfeasible` when the graph contains a cycle; the model
returns `none` in that case.  A table is (name, columns of its first
row). -/

/-- Names of the known tables (the keys of `rows_by_table`). -/
def tableNames (tables : List (String × List String)) : List String :=
  tables.map Prod.fst

/-- The Python test `col.upper().endswith('_ID')`, written over the
string's character list. -/
def upperEndsWithID (col : String) : Bool :=
  ['_', 'I', 'D'].isSuffixOf (col.data.map Char.toUpper)

/-- Edges of the dependency graph: `ref → table` whenever `table` has a
column whose uppercase form ends in `_ID` and whose first part names a
known table. -/
def graphEdges (tables : List (String × List String)) :
    List (String × String) :=
  tables.flatMap (fun tb =>
    tb.2.filterMap (fun col =>
      if upperEndsWithID col && (tableNames tables).contains (col.dropRight 3)
      then some (col.dropRight 3, tb.1)
      else none))

/-- Nodes of the dependency graph: the endpoints of its edges (NetworkX
adds both endpoints of every added edge; isolated tables never enter the
graph). -/
def graphNodes (tables : List (String × List String)) : List String :=
  ((graphEdges tables).flatMap (fun e => [e.1, e.2])).dedup

/-- One round of Kahn's algorithm: the first remaining node with no
incoming edge from a remaining node. -/
def pickNext (edges : List (String × String)) (rem : List String) :
    Option String :=
  rem.find? (fun v => !(edges.any (fun e => e.2 == v && rem.contains e.1)))

/-- Kahn's algorithm with explicit fuel; `none` models the
`NetworkXUnfeasible` exception raised on a cyclic graph. -/
def kahnAux (edges : List (String × String)) :
    Nat → List String → Option (List String)
  | 0, rem => if rem.isEmpty then some [] else none
  | n + 1, rem =>
    if rem.isEmpty then some []
    else
      (pickNext edges rem).bind (fun v =>
        (kahnAux edges n (rem.erase v)).map (fun ord => v :: ord))

/-- Topological sort of the dependency graph, as `nx.topological_sort`:
a total order of the nodes when the graph is acyclic, failure otherwise. -/
def topoSort (nodes : List String) (edges : List (String × String)) :
    Option (List String) :=
  kahnAux edges nodes.length nodes

/-- The table processing order produced by the dependency-graph step. -/
def tableOrder (tables : List (String × List String)) :
    Option (List String) :=
  topoSort (graphNodes tables) (graphEdges tables)

theorem pickNext_spec {edges : List (String × String)} {rem : List String}
    {v : String} (h : pickNext edges rem = some v) :
    v ∈ rem ∧ ∀ e ∈ edges, ¬(e.2 = v ∧ e.1 ∈ rem) := by
  refine ⟨List.mem_of_find?_eq_some h, ?_⟩
  have hp := List.find?_some h
  intro e he hc
  rw [Bool.not_eq_true', List.any_eq_false] at hp
  have := hp e he
  rw [hc.1] at this
  simp [hc.2] at this

theorem kahnAux_sound (edges : List (String × String)) :
    ∀ (n : Nat) (rem : List String) (ord : List String),
      kahnAux edges n rem = some ord →
      ord.Perm rem
      ∧ ∀ e ∈ edges, e.1 ∈ rem → e.2 ∈ rem →
          ord.indexOf e.1 < ord.indexOf e.2 := by
  intro n
  induction n with
  | zero =>
    intro rem ord h
    unfold kahnAux at h
    by_cases hr : rem.isEmpty
    · rw [if_pos hr] at h
      cases h
      rw [List.isEmpty_iff] at hr
      subst hr
      exact ⟨List.Perm.refl _, fun e _ h1 => absurd h1 (List.not_mem_nil _)⟩
    · rw [if_neg hr] at h; cases h
  | succ m ih =>
    intro rem ord h
    unfold kahnAux at h
    by_cases hr : rem.isEmpty
    · rw [if_pos hr] at h
      cases h
      rw [List.isEmpty_iff] at hr
      subst hr
      exact ⟨List.Perm.refl _, fun e _ h1 => absurd h1 (List.not_mem_nil _)⟩
    · rw [if_neg hr] at h
      cases hp : pickNext edges rem with
      | none => rw [hp] at h; cases h
      | some v =>
        rw [hp, Option.some_bind] at h
        cases hk : kahnAux edges m (rem.erase v) with
        | none => rw [hk] at h; cases h
        | some rest =>
          rw [hk] at h
          simp only [Option.map_some', Option.some.injEq] at h
          subst h
          obtain ⟨hv, hnoin⟩ := pickNext_spec hp
          obtain ⟨hperm, hedge⟩ := ih (rem.erase v) rest hk
          constructor
          · exact (hperm.cons v).trans (List.perm_cons_erase hv).symm
          · intro e he h1 h2
            by_cases hv2 : e.2 = v
            · exact absurd ⟨hv2, h1⟩ (hnoin e he)
            · by_cases hv1 : e.1 = v
              · rw [hv1, List.indexOf_cons_self,
                  List.indexOf_cons_ne rest (fun hh => hv2 hh.symm)]
                exact Nat.succ_pos _
              · have h1' : e.1 ∈ rem.erase v :=
                  (List.mem_erase_of_ne hv1).mpr h1
                have h2' : e.2 ∈ rem.erase v :=
                  (List.mem_erase_of_ne hv2).mpr h2
                rw [List.indexOf_cons_ne rest (fun hh => hv1 hh.symm),
                  List.indexOf_cons_ne rest (fun hh => hv2 hh.symm)]
                exact Nat.succ_lt_succ (hedge e he h1' h2')

theorem mem_graphNodes_of_edge {tables : List (String × List String)}
    {e : String × String} (he : e ∈ graphEdges tables) :
    e.1 ∈ graphNodes tables ∧ e.2 ∈ graphNodes tables := by
  constructor <;>
  · rw [graphNodes, List.mem_dedup, List.mem_flatMap]
    exact ⟨e, he, by simp⟩

/-- C7: whenever the dependency-graph step produces a final processing
order, every edge A→B of the resolved graph has A's rank strictly before
B's rank in that order. -/
theorem topo_respects_edges (tables : List (String × List String))
    (ord : List String) (h : tableOrder tables = some ord) :
    ∀ e ∈ graphEdges tables,
      e.1 ∈ ord ∧ e.2 ∈ ord ∧ ord.indexOf e.1 < ord.indexOf e.2 := by
  obtain ⟨hperm, hedge⟩ := kahnAux_sound (graphEdges tables) _ _ _ h
  intro e he
  obtain ⟨h1, h2⟩ := mem_graphNodes_of_edge he
  exact ⟨hperm.mem_iff.mpr h1, hperm.mem_iff.mpr h2, hedge e he h1 h2⟩

/-- Witness for C7: the spec's Example 3 — table `a` has a column `b_id`
referencing table `b`; the produced order places `b` strictly before
`a`. -/
theorem topo_respects_edges_witness :
    tableOrder [("a", ["id", "b_id"]), ("b", ["id"])] = some ["b", "a"]
    ∧ (["b", "a"] : List String).indexOf "b" < (["b", "a"] : List String).indexOf "a" := by
  have h : tableOrder [("a", ["id", "b_id"]), ("b", ["id"])] = some ["b", "a"] := by
    decide
  refine ⟨h, ?_⟩
  have := topo_respects_edges _ _ h ("b", "a") (by decide)
  exact this.2.2

theorem kahnAux_none_of_cycle (edges : List (String × String))
    (S : List String) (hS : S ≠ [])
    (hcyc : ∀ v ∈ S, ∃ u ∈ S, (u, v) ∈ edges) :
    ∀ (n : Nat) (rem : List String), (∀ v ∈ S, v ∈ rem) →
      kahnAux edges n rem = none := by
  intro n
  induction n with
  | zero =>
    intro rem hsub
    unfold kahnAux
    rw [if_neg]
    intro he
    rw [List.isEmpty_iff] at he
    obtain ⟨v, hv⟩ := List.exists_mem_of_ne_nil S hS
    exact absurd (hsub v hv) (he ▸ List.not_mem_nil v)
  | succ m ih =>
    intro rem hsub
    unfold kahnAux
    rw [if_neg]
    · cases hp : pickNext edges rem with
      | none => rfl
      | some v =>
        rw [Option.some_bind]
        have hvS : v ∉ S := by
          intro hvS
          obtain ⟨u, huS, hedge⟩ := hcyc v hvS
          exact (pickNext_spec hp).2 _ hedge ⟨rfl, hsub u huS⟩
        have hsub' : ∀ w ∈ S, w ∈ rem.erase v := by
          intro w hw
          refine (List.mem_erase_of_ne (fun h => hvS ?_)).mpr (hsub w hw)
          rw [← h]
          exact hw
        rw [ih (rem.erase v) hsub']
        rfl
    · intro he
      rw [List.isEmpty_iff] at he
      obtain ⟨v, hv⟩ := List.exists_mem_of_ne_nil S hS
      exact absurd (hsub v hv) (he ▸ List.not_mem_nil v)

/-- C4 counterexample: two tables referencing each other form a cycle in
the inferred dependency graph, and the ordering step fails (the
topological sort raises, modelled as `none`) instead of breaking the
cycle and producing a total order. -/
theorem dependency_cycle_counterexample :
    graphEdges [("a", ["b_id"]), ("b", ["a_id"])] = [("b", "a"), ("a", "b")]
    ∧ tableOrder [("a", ["b_id"]), ("b", ["a_id"])] = none := by
  constructor <;> decide

/-- C4 amended: when the inferred reference edges contain a cycle (a
nonempty node set in which every node has a predecessor in the set), the
DependencyGraphBuilder produces no order at all — `nx.topological_sort`
fails — rather than deterministically removing an edge and emitting a
warning. -/
theorem dependency_cycle_fails (tables : List (String × List String))
    (S : List String) (hS : S ≠ [])
    (hcyc : ∀ v ∈ S, ∃ u ∈ S, (u, v) ∈ graphEdges tables) :
    tableOrder tables = none := by
  apply kahnAux_none_of_cycle (graphEdges tables) S hS hcyc
  intro v hv
  obtain ⟨u, _, hedge⟩ := hcyc v hv
  exact (mem_graphNodes_of_edge hedge).2

/-- Witness for the amended C4: the two mutually-referencing tables form
a concrete cycle, so the ordering step fails on them. -/
theorem dependency_cycle_fails_witness :
    tableOrder [("a", ["b_id"]), ("b", ["a_id"])] = none := by
  apply dependency_cycle_fails _ ["a", "b"] (by decide)
  intro v hv
  rcases List.mem_cons.mp hv with h | h
  · subst h
    exact ⟨"b", by decide, by decide⟩
  · rcases List.mem_cons.mp h with h' | h'
    · subst h'
      exact ⟨"a", by decide, by decide⟩
    · cases h'

/-! ## Frontend components

Translated from `src/frontend/src/components/ProgressBar.tsx` (enhanced
version), `Dropzone.tsx` and `ComparisonExample.tsx`. -/

/-- Translated from ProgressBar.tsx:
`const clampedProgress = Math.min(100, Math.max(0, progress));`
The fill width is rendered as `${clampedProgress}%`. -/
def clampedProgress (progress : ℚ) : ℚ :=
  min 100 (max 0 progress)

/-- C8: the enhanced ProgressBar renders a fill width equal to the input
clamped into [0,100]: never outside the bar's bounds, 0 for negative
inputs, 100 for inputs above 100, and the input itself inside the
range. -/
theorem progressBar_clamp (p : ℚ) :
    0 ≤ clampedProgress p ∧ clampedProgress p ≤ 100
    ∧ (p < 0 → clampedProgress p = 0)
    ∧ (100 < p → clampedProgress p = 100)
    ∧ (0 ≤ p → p ≤ 100 → clampedProgress p = p) := by
  unfold clampedProgress
  refine ⟨le_min (by norm_num) (le_max_left 0 p) , min_le_left _ _, ?_, ?_, ?_⟩
  · intro hp
    rw [max_eq_left hp.le, min_eq_right (by norm_num)]
  · intro hp
    rw [max_eq_right (by linarith), min_eq_left hp.le]
  · intro h0 h100
    rw [max_eq_right h0, min_eq_right h100]

/-- Witness for C8: concrete inputs below, above and inside the range. -/
theorem progressBar_clamp_witness :
    clampedProgress (-5) = 0 ∧ clampedProgress 150 = 100
    ∧ clampedProgress 42 = 42 :=
  ⟨(progressBar_clamp (-5)).2.2.1 (by norm_num),
   (progressBar_clamp 150).2.2.2.1 (by norm_num),
   (progressBar_clamp 42).2.2.2.2 (by norm_num) (by norm_num)⟩

/-- Translated from Dropzone.tsx:
`setFiles(files.filter((_, index) => index !== indexToRemove));` -/
def removeFile {α : Type} (files : List α) (indexToRemove : Nat) : List α :=
  ((files.enum).filter (fun p => decide (p.1 ≠ indexToRemove))).map Prod.snd

/-- Translated from Dropzone.tsx:
`onDrop = (acceptedFiles) => setFiles([...files, ...acceptedFiles])` -/
def onDrop {α : Type} (files acceptedFiles : List α) : List α :=
  files ++ acceptedFiles

theorem removeFile_enumFrom_keep {α : Type} (i : Nat) :
    ∀ (l : List α) (n : Nat), i < n →
      ((l.enumFrom n).filter (fun p => decide (p.1 ≠ i))).map Prod.snd = l := by
  intro l
  induction l with
  | nil => intro n _; rfl
  | cons a tl ih =>
    intro n hn
    have hne : n ≠ i := by omega
    simp only [List.enumFrom, List.filter_cons, decide_eq_true_eq]
    rw [if_pos hne]
    simp only [List.map_cons]
    rw [ih (n + 1) (by omega)]

theorem removeFile_enumFrom {α : Type} :
    ∀ (l : List α) (n i : Nat),
      ((l.enumFrom n).filter (fun p => decide (p.1 ≠ n + i))).map Prod.snd
        = l.take i ++ l.drop (i + 1) := by
  intro l
  induction l with
  | nil => intro n i; simp
  | cons a tl ih =>
    intro n i
    cases i with
    | zero =>
      simp only [List.enumFrom, List.filter_cons, decide_eq_true_eq]
      rw [if_neg (by omega : ¬ n ≠ n + 0)]
      simp only [List.take_zero, List.nil_append, List.drop_succ_cons,
        List.drop_zero]
      exact removeFile_enumFrom_keep (n + 0) tl (n + 1) (by omega)
    | succ j =>
      simp only [List.enumFrom, List.filter_cons, decide_eq_true_eq]
      rw [if_pos (by omega : n ≠ n + (j + 1))]
      simp only [List.map_cons, List.take_succ_cons, List.drop_succ_cons,
        List.cons_append, List.cons.injEq, true_and]
      rw [show n + (j + 1) = (n + 1) + j by omega]
      exact ih (n + 1) j

/-- C9: removeFile removes exactly the file at position i, keeping every
other file in its original relative order, and dropping new files
appends them after the existing list, leaving the already-selected files
unchanged in place. -/
theorem dropzone_frame {α : Type} (files acceptedFiles : List α) (i : Nat) :
    removeFile files i = files.take i ++ files.drop (i + 1)
    ∧ onDrop files acceptedFiles = files ++ acceptedFiles
    ∧ (onDrop files acceptedFiles).take files.length = files
    ∧ (onDrop files acceptedFiles).drop files.length = acceptedFiles := by
  refine ⟨?_, rfl, ?_, ?_⟩
  · have := removeFile_enumFrom files 0 i
    simpa [removeFile, List.enum] using this
  · exact List.take_left' rfl
  · exact List.drop_left' rfl

/-- Translated from ComparisonExample.tsx:
`export type Direction = "pg2ora" | "ora2pg";` -/
inductive Direction where
  | pg2ora
  | ora2pg
deriving DecidableEq, Repr

/-- The string written to localStorage for a direction value
(`localStorage.setItem(STORAGE_KEY, newDirection)`). -/
def Direction.toKey : Direction → String
  | .pg2ora => "pg2ora"
  | .ora2pg => "ora2pg"

/-- Translated from DirectionSelector's mount effect: a stored value is
restored only when it is exactly "pg2ora" or "ora2pg"; any other stored
content leaves the current selection unchanged. -/
def restoreOnMount (current : Direction) (stored : Option String) : Direction :=
  match stored with
  | some s =>
    if s = "pg2ora" then Direction.pg2ora
    else if s = "ora2pg" then Direction.ora2pg
    else current
  | none => current

/-- C10: the conversion-direction state is always one of the two values:
DirectionSelector writes only "pg2ora"/"ora2pg" to localStorage, restores
a stored value only when it is exactly one of the two, and leaves the
current selection unchanged for any other stored string. -/
theorem direction_invariant :
    (∀ d : Direction, d = Direction.pg2ora ∨ d = Direction.ora2pg)
    ∧ (∀ d : Direction, d.toKey = "pg2ora" ∨ d.toKey = "ora2pg")
    ∧ (∀ c : Direction, restoreOnMount c (some "pg2ora") = Direction.pg2ora)
    ∧ (∀ c : Direction, restoreOnMount c (some "ora2pg") = Direction.ora2pg)
    ∧ (∀ (c : Direction) (s : Option String),
        s ≠ some "pg2ora" → s ≠ some "ora2pg" → restoreOnMount c s = c) := by
  refine ⟨?_, ?_, fun c => rfl, fun c => rfl, ?_⟩
  · intro d; cases d
    · exact Or.inl rfl
    · exact Or.inr rfl
  · intro d; cases d
    · exact Or.inl rfl
    · exact Or.inr rfl
  · intro c s h1 h2
    cases s with
    | none => rfl
    | some s =>
      have hs1 : ¬ s = "pg2ora" := fun h => h1 (by rw [h])
      have hs2 : ¬ s = "ora2pg" := fun h => h2 (by rw [h])
      simp [restoreOnMount, hs1, hs2]

/-- Witness for C10: a junk stored string leaves the selection as it
was. -/
theorem direction_invariant_witness :
    restoreOnMount Direction.ora2pg (some "garbage") = Direction.ora2pg :=
  direction_invariant.2.2.2.2 Direction.ora2pg (some "garbage")
    (by decide) (by decide)

/-! ## StatementParser

Translated from the `INSERT_REGEX` quoted in the project overview
(`ingest.py`, Step 2 "Parse"):

  INSERT_REGEX = r"INSERT\s+INTO\s+['\"]?(\w+)['\"]?\s*\((.*?)\)\s*VALUES\s*(\(.+\));"

applied over the file content with `re.findall` semantics (leftmost
non-overlapping matches, default flags: case-sensitive, `.` not matching
newline).  The lazy group 2 stops at the first `)`, the greedy group 3
extends to the last `);` reachable without crossing a newline.  The
decomposition of a multi-tuple `VALUES` blob into one row per literal
tuple is modelled from the spec (`ingest.py` itself is absent from the
repository snapshot); the quoted code has no error path, so the scan
produces rows only. -/

/-- Consumes the optional quote `['\"]?`. -/
def quoteOpt : List Char → List Char
  | [] => []
  | c :: rest => if c = '\'' || c = '"' then rest else c :: rest

theorem quoteOpt_quote {c : Char} (r : List Char) (hc : c = '\'' ∨ c = '"') :
    quoteOpt (c :: r) = r := by
  rcases hc with h | h <;> (subst h; rfl)

end SqlCleanser
